import Mathlib

/-!
Shallow embedding of the bounded-concurrency image-compression job queue of
`src/src/components/ImageCompressorApp.tsx`.

Jobs are the `CompressedImage` records of the source; the scheduler state is
the component state (`images`, `queue`, `active`, `completed`, `paused`,
`selectedImage`, `isRecompressing`).  The external compression capability is
treated as an oracle: a settle step carries the output byte size it returned,
and a compression failure is a distinct settle step, exactly as the
`try/catch/finally` of `processQueue` and `recompressSelectedImage` distinguish
them.  All React state updates fired by one handler are modelled as one atomic
transition (the source is single-threaded and cooperative).  The opaque random
ids of the source (`Math.random().toString(36)`) are modelled as a fresh-id
counter; the only property the source relies on is their uniqueness.
-/

namespace ImageCompressor

/-- Job status, matching the `status` union of the `CompressedImage` interface:
`'idle' | 'queued' | 'compressing' | 'compressed' | 'error' | 'cancelled'`. -/
inductive Status where
  | idle
  | queued
  | compressing
  | compressed
  | error
  | cancelled
deriving DecidableEq

/-- A raw file handed to `handleFiles`: only its name, MIME type and byte size
are consulted by the queue logic. -/
structure InputFile where
  name : String
  type : String
  size : Nat
deriving DecidableEq

/-- One job record, the queue-relevant fields of `CompressedImage`.
`compressedFile` models the `File | null` field by the output byte size. -/
structure Image where
  id : Nat
  name : String
  originalSize : Nat
  compressedSize : Nat
  compressedFile : Option Nat
  compressionRatio : Int
  status : Status
deriving DecidableEq

def MAX_UPLOAD_SIZE_MB : Nat := 5

def MAX_CONCURRENT : Nat := 3

/-- The ratio computed by `compressImage`:
`Math.max(0, Math.round((1 - compressedFile.size / file.size) * 100))`.
JavaScript `Math.round` is `⌊x + 1/2⌋`, which is Mathlib's `round`. -/
def compressionRatioOf (originalSize compressedSize : Nat) : Int :=
  max 0 (round ((1 - (compressedSize : ℚ) / (originalSize : ℚ)) * 100))

/-- The component state of `ImageCompressorApp` that the scheduler reads and
writes.  `selected` is the id of `selectedImage`; `rerun` is `some id` while a
re-compression of job `id` is in flight (`isRecompressing`). -/
structure AppState where
  images : List Image
  queue : List Nat
  active : List Nat
  completed : Nat
  paused : Bool
  selected : Option Nat
  rerun : Option Nat
  nextId : Nat
deriving DecidableEq

def initState : AppState :=
  { images := [], queue := [], active := [], completed := 0,
    paused := false, selected := none, rerun := none, nextId := 0 }

/-- `file.type.startsWith('image/')`, the filter of `handleFiles`.  The
JavaScript `startsWith` is the character-prefix test, embedded here on the
character list of the MIME type so that it evaluates inside the kernel. -/
def isImageFile (f : InputFile) : Bool := "image/".toList.isPrefixOf f.type.toList

/-- Modelled from the spec's words (§6, §8): a valid file is image-typed and of
size at most 5 MiB.  Used only to compare the spec's counting claim with the
source's `handleFiles`. -/
def validFile (f : InputFile) : Bool :=
  isImageFile f && decide (f.size ≤ MAX_UPLOAD_SIZE_MB * 1024 * 1024)

/-- The fresh `CompressedImage` record built by `handleFiles` for one file. -/
def mkJob (nid : Nat) (f : InputFile) : Image :=
  { id := nid, name := f.name, originalSize := f.size, compressedSize := 0,
    compressedFile := none, compressionRatio := 0, status := .queued }

/-- The `newImages` list of `handleFiles`, with sequential fresh ids. -/
def freshJobs : Nat → List InputFile → List Image
  | _, [] => []
  | n, f :: fs => mkJob n f :: freshJobs (n + 1) fs

/-- `handleFiles`: filter to image MIME types; reject the whole batch when no
image file remains or when any image file exceeds the 5 MB limit; otherwise
append one `queued` job per image file and its id to the pending queue. -/
def handleFiles (files : List InputFile) (st : AppState) : AppState :=
  if (files.filter isImageFile).length = 0 then st
  else if 0 < ((files.filter isImageFile).filter fun f =>
      decide (MAX_UPLOAD_SIZE_MB * 1024 * 1024 < f.size)).length then st
  else
    { st with
        images := st.images ++ freshJobs st.nextId (files.filter isImageFile),
        queue := st.queue ++
          (freshJobs st.nextId (files.filter isImageFile)).map (·.id),
        nextId := st.nextId + (files.filter isImageFile).length }

/-- `setImages(prev => prev.map(img => img.id === id ? { ...img, status } : img))`. -/
def setStatus (imgs : List Image) (a : Nat) (s : Status) : List Image :=
  imgs.map fun img => if img.id = a then { img with status := s } else img

/-- The success update of `processQueue` / `recompressSelectedImage`: store the
compressed file, its size, the derived ratio, and status `compressed`. -/
def applySuccess (imgs : List Image) (a outSize : Nat) : List Image :=
  imgs.map fun img =>
    if img.id = a then
      { img with compressedFile := some outSize, compressedSize := outSize,
                 compressionRatio := compressionRatioOf img.originalSize outSize,
                 status := .compressed }
    else img

/-- `images.find(i => i.id === id)`. -/
def findImage (imgs : List Image) (a : Nat) : Option Image :=
  imgs.find? fun img => decide (img.id = a)

def findStatus (imgs : List Image) (a : Nat) : Option Status :=
  (findImage imgs a).map (·.status)

/-- `images.filter(img => img.status !== 'idle' && img.status !== 'cancelled').length`,
the denominator of the batch progress bar. -/
def totalToProcess (st : AppState) : Nat :=
  (st.images.filter fun img =>
    decide (img.status ≠ .idle) && decide (img.status ≠ .cancelled)).length

/-- Number of records currently in status `compressing`. -/
def compressingCount (st : AppState) : Nat :=
  (st.images.filter fun img => decide (img.status = .compressing)).length

/-- Observable scheduler events: one label per user request or asynchronous
settle of the source component. -/
inductive Label where
  | upload (files : List InputFile)
  | processQueue
  | settleSuccess (a outSize : Nat)
  | settleError (a : Nat)
  | settleDropped (a : Nat)
  | cancelQueued (a : Nat)
  | togglePause
  | selectImage (a : Nat)
  | recompressStart (a : Nat)
  | recompressSuccess (outSize : Nat)
  | recompressError
  | removeImage (a : Nat)
  | clearAll
deriving DecidableEq

/-- Successor state of the admission branch of `processQueue`: push the head of
the pending queue into the active set and mark it `compressing`. -/
def processQueueState (st : AppState) (a : Nat) (rest : List Nat) : AppState :=
  { st with active := st.active ++ [a], queue := rest,
            images := setStatus st.images a .compressing }

/-- Successor state of a successful settle in `processQueue`: store the result,
bump `completed`, release the active slot. -/
def settleSuccessState (st : AppState) (a outSize : Nat) : AppState :=
  { st with images := applySuccess st.images a outSize,
            completed := st.completed + 1,
            active := st.active.filter fun x => decide (x ≠ a) }

/-- Successor state of the `catch` branch of `processQueue`. -/
def settleErrorState (st : AppState) (a : Nat) : AppState :=
  { st with images := setStatus st.images a .error,
            active := st.active.filter fun x => decide (x ≠ a) }

/-- Successor state of the early `if (!img) return` of `processQueue`: only the
`finally` block runs, releasing the active slot. -/
def settleDroppedState (st : AppState) (a : Nat) : AppState :=
  { st with active := st.active.filter fun x => decide (x ≠ a) }

/-- Successor state of `cancelQueued`. -/
def cancelQueuedState (st : AppState) (a : Nat) : AppState :=
  { st with queue := st.queue.filter (fun x => decide (x ≠ a)),
            images := setStatus st.images a .cancelled }

/-- Successor state of the first half of `recompressSelectedImage`. -/
def recompressStartState (st : AppState) (a : Nat) : AppState :=
  { st with images := setStatus st.images a .compressing, rerun := some a }

/-- Successor state of a successful `recompressSelectedImage`. -/
def recompressSuccessState (st : AppState) (a outSize : Nat) : AppState :=
  { st with images := applySuccess st.images a outSize, rerun := none }

/-- Successor state of a failed `recompressSelectedImage`. -/
def recompressErrorState (st : AppState) (a : Nat) : AppState :=
  { st with images := setStatus st.images a .error, rerun := none }

/-- Successor state of `removeImage`. -/
def removeImageState (st : AppState) (a : Nat) : AppState :=
  { st with images := st.images.filter (fun img => decide (img.id ≠ a)),
            queue := st.queue.filter (fun x => decide (x ≠ a)),
            selected := if st.selected = some a then
                ((st.images.filter (fun img => decide (img.id ≠ a))).head?.map (·.id))
              else st.selected }

/-- Successor state of `clearAll`. -/
def clearAllState (st : AppState) : AppState :=
  { st with images := [], queue := [], active := [],
            completed := 0, selected := none }

/-- One atomic transition of the component.  The guards are the guards of the
source handlers: `processQueue` returns early when paused, at capacity, or with
an empty queue; settles exist only for jobs in flight (members of `active`);
the cancel button is rendered only for `queued` records; the remove button only
for settled records; the re-compress button acts on `selectedImage` and is
disabled while a re-compression is already running. -/
inductive Step : AppState → Label → AppState → Prop
  | upload (st : AppState) (fs : List InputFile) :
      Step st (.upload fs) (handleFiles fs st)
  | processQueue (st : AppState) (a : Nat) (rest : List Nat)
      (hp : st.paused = false)
      (hc : st.active.length < MAX_CONCURRENT)
      (hq : st.queue = a :: rest) :
      Step st .processQueue (processQueueState st a rest)
  | settleSuccess (st : AppState) (a outSize : Nat) (img : Image)
      (ha : a ∈ st.active) (hi : findImage st.images a = some img) :
      Step st (.settleSuccess a outSize) (settleSuccessState st a outSize)
  | settleError (st : AppState) (a : Nat) (img : Image)
      (ha : a ∈ st.active) (hi : findImage st.images a = some img) :
      Step st (.settleError a) (settleErrorState st a)
  | settleDropped (st : AppState) (a : Nat)
      (ha : a ∈ st.active) (hi : findImage st.images a = none) :
      Step st (.settleDropped a) (settleDroppedState st a)
  | cancelQueued (st : AppState) (a : Nat)
      (h : findStatus st.images a = some .queued) :
      Step st (.cancelQueued a) (cancelQueuedState st a)
  | togglePause (st : AppState) :
      Step st .togglePause { st with paused := !st.paused }
  | selectImage (st : AppState) (a : Nat) (img : Image)
      (h : findImage st.images a = some img) :
      Step st (.selectImage a) { st with selected := some a }
  | recompressStart (st : AppState) (a : Nat)
      (hsel : st.selected = some a) (hre : st.rerun = none) :
      Step st (.recompressStart a) (recompressStartState st a)
  | recompressSuccess (st : AppState) (a outSize : Nat)
      (h : st.rerun = some a) :
      Step st (.recompressSuccess outSize) (recompressSuccessState st a outSize)
  | recompressError (st : AppState) (a : Nat)
      (h : st.rerun = some a) :
      Step st .recompressError (recompressErrorState st a)
  | removeImage (st : AppState) (a : Nat) (s : Status)
      (h : findStatus st.images a = some s)
      (hterm : s = .compressed ∨ s = .error ∨ s = .cancelled) :
      Step st (.removeImage a) (removeImageState st a)
  | clearAll (st : AppState) :
      Step st .clearAll (clearAllState st)

/-- States reachable from the empty component state. -/
inductive Reachable : AppState → Prop
  | init : Reachable initState
  | step {st : AppState} {l : Label} {st' : AppState} :
      Reachable st → Step st l st' → Reachable st'

/-- A finite run labelled by its events. -/
inductive Trace : AppState → List Label → AppState → Prop
  | nil (st : AppState) : Trace st [] st
  | cons {st : AppState} {l : Label} {stm : AppState} {ls : List Label}
      {st' : AppState} :
      Step st l stm → Trace stm ls st' → Trace st (l :: ls) st'

/-! Basic facts about the operations. -/

theorem freshJobs_length (n : Nat) (fs : List InputFile) :
    (freshJobs n fs).length = fs.length := by
  induction fs generalizing n with
  | nil => rfl
  | cons f fs ih => simp [freshJobs, ih]

theorem mem_freshJobs {n : Nat} {fs : List InputFile} {img : Image}
    (h : img ∈ freshJobs n fs) :
    (n ≤ img.id ∧ img.id < n + fs.length) ∧ img.status = .queued ∧
      img.compressedFile = none := by
  induction fs generalizing n with
  | nil => simp [freshJobs] at h
  | cons f fs ih =>
    simp only [freshJobs, List.mem_cons] at h
    rcases h with h | h
    · subst h
      exact ⟨⟨Nat.le_refl _, by simp [mkJob]⟩, rfl, rfl⟩
    · obtain ⟨⟨h1, h2⟩, h3, h4⟩ := ih h
      exact ⟨⟨by omega, by simp only [List.length_cons]; omega⟩, h3, h4⟩

theorem freshJobs_ids_nodup (n : Nat) (fs : List InputFile) :
    ((freshJobs n fs).map (·.id)).Nodup := by
  induction fs generalizing n with
  | nil => simp [freshJobs]
  | cons f fs ih =>
    simp only [freshJobs, List.map_cons, List.nodup_cons]
    refine ⟨?_, ih (n + 1)⟩
    intro hmem
    obtain ⟨img, himg, hid⟩ := List.mem_map.1 hmem
    have hlo := (mem_freshJobs himg).1.1
    simp only [mkJob] at hid
    omega

theorem freshJobs_names (n : Nat) (fs : List InputFile) :
    (freshJobs n fs).map (fun img => (img.name, img.originalSize)) =
      fs.map (fun f => (f.name, f.size)) := by
  induction fs generalizing n with
  | nil => rfl
  | cons f fs ih => simp [freshJobs, mkJob, ih]

theorem handleFiles_of_no_images (fs : List InputFile) (st : AppState)
    (h : (fs.filter isImageFile).length = 0) : handleFiles fs st = st := by
  unfold handleFiles
  rw [if_pos h]

theorem handleFiles_of_oversized (fs : List InputFile) (st : AppState)
    (h : ∃ f ∈ fs.filter isImageFile, MAX_UPLOAD_SIZE_MB * 1024 * 1024 < f.size) :
    handleFiles fs st = st := by
  unfold handleFiles
  by_cases h0 : (fs.filter isImageFile).length = 0
  · rw [if_pos h0]
  · rw [if_neg h0, if_pos ?_]
    obtain ⟨f, hf, hsz⟩ := h
    have hmem : f ∈ (fs.filter isImageFile).filter fun f =>
        decide (MAX_UPLOAD_SIZE_MB * 1024 * 1024 < f.size) :=
      List.mem_filter.2 ⟨hf, by simpa using hsz⟩
    exact List.length_pos.2 (List.ne_nil_of_mem hmem)

theorem handleFiles_of_accepted (fs : List InputFile) (st : AppState)
    (hne : (fs.filter isImageFile).length ≠ 0)
    (hsize : ∀ f ∈ fs.filter isImageFile,
      f.size ≤ MAX_UPLOAD_SIZE_MB * 1024 * 1024) :
    handleFiles fs st =
      { st with
          images := st.images ++ freshJobs st.nextId (fs.filter isImageFile),
          queue := st.queue ++
            (freshJobs st.nextId (fs.filter isImageFile)).map (·.id),
          nextId := st.nextId + (fs.filter isImageFile).length } := by
  unfold handleFiles
  rw [if_neg hne, if_neg ?_]
  have hov : ((fs.filter isImageFile).filter fun f =>
      decide (MAX_UPLOAD_SIZE_MB * 1024 * 1024 < f.size)) = [] := by
    rw [List.filter_eq_nil_iff]
    intro f hf
    simpa using Nat.not_lt.2 (hsize f hf)
  rw [hov]
  simp

theorem setStatus_map_id (imgs : List Image) (a : Nat) (s : Status) :
    (setStatus imgs a s).map (·.id) = imgs.map (·.id) := by
  unfold setStatus
  rw [List.map_map]
  apply List.map_congr_left
  intro img _
  by_cases h : img.id = a <;> simp [h]

theorem applySuccess_map_id (imgs : List Image) (a r : Nat) :
    (applySuccess imgs a r).map (·.id) = imgs.map (·.id) := by
  unfold applySuccess
  rw [List.map_map]
  apply List.map_congr_left
  intro img _
  by_cases h : img.id = a <;> simp [h]

theorem mem_setStatus {imgs : List Image} {a : Nat} {s : Status} {img' : Image}
    (h : img' ∈ setStatus imgs a s) :
    ∃ img ∈ imgs, (img.id = a ∧ img' = { img with status := s }) ∨
      (img.id ≠ a ∧ img' = img) := by
  obtain ⟨img, himg, heq⟩ := List.mem_map.1 h
  refine ⟨img, himg, ?_⟩
  by_cases hid : img.id = a
  · exact Or.inl ⟨hid, by rw [← heq, if_pos hid]⟩
  · exact Or.inr ⟨hid, by rw [← heq, if_neg hid]⟩

theorem mem_applySuccess {imgs : List Image} {a r : Nat} {img' : Image}
    (h : img' ∈ applySuccess imgs a r) :
    ∃ img ∈ imgs, (img.id = a ∧ img' =
      { img with compressedFile := some r, compressedSize := r,
                 compressionRatio := compressionRatioOf img.originalSize r,
                 status := .compressed }) ∨ (img.id ≠ a ∧ img' = img) := by
  obtain ⟨img, himg, heq⟩ := List.mem_map.1 h
  refine ⟨img, himg, ?_⟩
  by_cases hid : img.id = a
  · exact Or.inl ⟨hid, by rw [← heq, if_pos hid]⟩
  · exact Or.inr ⟨hid, by rw [← heq, if_neg hid]⟩

theorem findImage_eq_none {imgs : List Image} {a : Nat}
    (h : findImage imgs a = none) : ∀ img ∈ imgs, img.id ≠ a := by
  intro img hm
  have := List.find?_eq_none.1 h img hm
  simpa using this

theorem findImage_update_self (g : Image → Image)
    (hg : ∀ img, (g img).id = img.id) (imgs : List Image) (a : Nat) :
    findImage (imgs.map fun img => if img.id = a then g img else img) a =
      (findImage imgs a).map g := by
  induction imgs with
  | nil => rfl
  | cons x xs ih =>
    by_cases hx : x.id = a
    · unfold findImage at ih ⊢
      rw [List.map_cons, if_pos hx, List.find?_cons_of_pos _ (by simp [hg x, hx]),
        List.find?_cons_of_pos _ (by simp [hx])]
      rfl
    · unfold findImage at ih ⊢
      rw [List.map_cons, if_neg hx, List.find?_cons_of_neg _ (by simp [hx]),
        List.find?_cons_of_neg _ (by simp [hx])]
      exact ih

theorem findImage_update_ne (g : Image → Image)
    (hg : ∀ img, (g img).id = img.id) (imgs : List Image) {a b : Nat}
    (hab : b ≠ a) :
    findImage (imgs.map fun img => if img.id = a then g img else img) b =
      findImage imgs b := by
  induction imgs with
  | nil => rfl
  | cons x xs ih =>
    by_cases hx : x.id = b
    · unfold findImage at ih ⊢
      rw [List.map_cons]
      have hxa : ¬ x.id = a := by rw [hx]; exact hab
      rw [if_neg hxa, List.find?_cons_of_pos _ (by simp [hx]),
        List.find?_cons_of_pos _ (by simp [hx])]
    · unfold findImage at ih ⊢
      rw [List.map_cons]
      by_cases hxa : x.id = a
      · rw [if_pos hxa, List.find?_cons_of_neg _ (by simp [hg x, hx]),
          List.find?_cons_of_neg _ (by simp [hx])]
        exact ih
      · rw [if_neg hxa, List.find?_cons_of_neg _ (by simp [hx]),
          List.find?_cons_of_neg _ (by simp [hx])]
        exact ih

theorem findImage_setStatus_self {imgs : List Image} {a : Nat} {s : Status} :
    findImage (setStatus imgs a s) a =
      (findImage imgs a).map fun img => { img with status := s } :=
  findImage_update_self (fun img => { img with status := s }) (fun _ => rfl) imgs a

theorem findImage_setStatus_ne {imgs : List Image} {a b : Nat} {s : Status}
    (hab : b ≠ a) : findImage (setStatus imgs a s) b = findImage imgs b :=
  findImage_update_ne (fun img => { img with status := s }) (fun _ => rfl) imgs hab

theorem findImage_applySuccess_self {imgs : List Image} {a r : Nat} :
    findImage (applySuccess imgs a r) a =
      (findImage imgs a).map fun img =>
        { img with compressedFile := some r, compressedSize := r,
                   compressionRatio := compressionRatioOf img.originalSize r,
                   status := .compressed } :=
  findImage_update_self
    (fun img =>
      { img with compressedFile := some r, compressedSize := r,
                 compressionRatio := compressionRatioOf img.originalSize r,
                 status := .compressed })
    (fun _ => rfl) imgs a

theorem findImage_applySuccess_ne {imgs : List Image} {a b r : Nat}
    (hab : b ≠ a) : findImage (applySuccess imgs a r) b = findImage imgs b :=
  findImage_update_ne
    (fun img =>
      { img with compressedFile := some r, compressedSize := r,
                 compressionRatio := compressionRatioOf img.originalSize r,
                 status := .compressed })
    (fun _ => rfl) imgs hab

/-- Inductive invariant of the component, established below for every
reachable state. -/
structure Inv (st : AppState) : Prop where
  active_le : st.active.length ≤ MAX_CONCURRENT
  ids_nodup : (st.images.map (·.id)).Nodup
  queue_nodup : st.queue.Nodup
  images_lt : ∀ img ∈ st.images, img.id < st.nextId
  queue_lt : ∀ a ∈ st.queue, a < st.nextId
  compressing_tracked : ∀ img ∈ st.images, img.status = .compressing →
    img.id ∈ st.active ∨ st.rerun = some img.id
  compressed_has_file : ∀ img ∈ st.images, img.status = .compressed →
    img.compressedFile ≠ none

theorem Inv.init : Inv initState := by
  constructor <;> simp [initState, MAX_CONCURRENT]

theorem Inv.upload {st : AppState} (inv : Inv st) (fs : List InputFile) :
    Inv (handleFiles fs st) := by
  by_cases h0 : (fs.filter isImageFile).length = 0
  · rw [handleFiles_of_no_images fs st h0]; exact inv
  by_cases hov : ∃ f ∈ fs.filter isImageFile,
      MAX_UPLOAD_SIZE_MB * 1024 * 1024 < f.size
  · rw [handleFiles_of_oversized fs st hov]; exact inv
  push_neg at hov
  rw [handleFiles_of_accepted fs st h0 hov]
  have hfresh : ∀ x ∈ (freshJobs st.nextId (fs.filter isImageFile)).map (·.id),
      st.nextId ≤ x ∧ x < st.nextId + (fs.filter isImageFile).length := by
    intro x hx
    obtain ⟨img, himg, rfl⟩ := List.mem_map.1 hx
    exact (mem_freshJobs himg).1
  constructor
  · simpa using inv.active_le
  · rw [List.map_append]
    refine List.Nodup.append inv.ids_nodup (freshJobs_ids_nodup _ _) ?_
    intro x hx hy
    have h1 : x < st.nextId := by
      obtain ⟨img, himg, rfl⟩ := List.mem_map.1 hx
      exact inv.images_lt img himg
    have h2 := (hfresh x hy).1
    omega
  · refine List.Nodup.append inv.queue_nodup (freshJobs_ids_nodup _ _) ?_
    intro x hx hy
    have h1 := inv.queue_lt x hx
    have h2 := (hfresh x hy).1
    omega
  · intro img him
    rcases List.mem_append.1 him with h | h
    · have := inv.images_lt img h
      simp only [freshJobs_length]
      omega
    · have := (mem_freshJobs h).1.2
      simpa using this
  · intro x hx
    rcases List.mem_append.1 hx with h | h
    · have := inv.queue_lt x h
      simp only [freshJobs_length]
      omega
    · have := (hfresh x h).2
      simpa using this
  · intro img him hcomp
    rcases List.mem_append.1 him with h | h
    · exact inv.compressing_tracked img h hcomp
    · have := (mem_freshJobs h).2.1
      rw [hcomp] at this
      cases this
  · intro img him hcomp
    rcases List.mem_append.1 him with h | h
    · exact inv.compressed_has_file img h hcomp
    · have := (mem_freshJobs h).2.1
      rw [hcomp] at this
      cases this

theorem Inv.processQueueCase {st : AppState} {a : Nat} {rest : List Nat}
    (inv : Inv st) (hc : st.active.length < MAX_CONCURRENT)
    (hq : st.queue = a :: rest) : Inv (processQueueState st a rest) := by
  have hrest_nodup : rest.Nodup := by
    have := inv.queue_nodup
    rw [hq] at this
    exact (List.nodup_cons.1 this).2
  constructor
  · simp only [processQueueState, List.length_append, List.length_singleton]
    exact hc
  · simpa [processQueueState, setStatus_map_id] using inv.ids_nodup
  · exact hrest_nodup
  · intro img him
    obtain ⟨img0, h0, hcase⟩ := mem_setStatus him
    have := inv.images_lt img0 h0
    rcases hcase with ⟨_, rfl⟩ | ⟨_, rfl⟩ <;> simpa using this
  · intro x hx
    exact inv.queue_lt x (by rw [hq]; exact List.mem_cons_of_mem _ hx)
  · intro img him hcomp
    obtain ⟨img0, h0, hcase⟩ := mem_setStatus him
    rcases hcase with ⟨hid, rfl⟩ | ⟨hid, rfl⟩
    · left
      simp only [processQueueState, List.mem_append, List.mem_singleton]
      right
      simpa using hid
    · rcases inv.compressing_tracked img h0 hcomp with hin | hre
      · left
        simp only [processQueueState, List.mem_append]
        exact Or.inl hin
      · right
        exact hre
  · intro img him hcomp
    obtain ⟨img0, h0, hcase⟩ := mem_setStatus him
    rcases hcase with ⟨hid, rfl⟩ | ⟨hid, rfl⟩
    · simp at hcomp
    · exact inv.compressed_has_file img h0 hcomp

theorem Inv.settleSuccessCase {st : AppState} {a r : Nat} (inv : Inv st) :
    Inv (settleSuccessState st a r) := by
  constructor
  · exact le_trans (List.length_filter_le _ _) inv.active_le
  · simpa [settleSuccessState, applySuccess_map_id] using inv.ids_nodup
  · exact inv.queue_nodup
  · intro img him
    obtain ⟨img0, h0, hcase⟩ := mem_applySuccess him
    have := inv.images_lt img0 h0
    rcases hcase with ⟨_, rfl⟩ | ⟨_, rfl⟩ <;> simpa using this
  · exact inv.queue_lt
  · intro img him hcomp
    obtain ⟨img0, h0, hcase⟩ := mem_applySuccess him
    rcases hcase with ⟨hid, rfl⟩ | ⟨hid, rfl⟩
    · simp at hcomp
    · rcases inv.compressing_tracked img h0 hcomp with hin | hre
      · left
        simp only [settleSuccessState]
        exact List.mem_filter.2 ⟨hin, by simpa using hid⟩
      · right
        exact hre
  · intro img him hcomp
    obtain ⟨img0, h0, hcase⟩ := mem_applySuccess him
    rcases hcase with ⟨hid, rfl⟩ | ⟨hid, rfl⟩
    · simp
    · exact inv.compressed_has_file img h0 hcomp

theorem Inv.settleErrorCase {st : AppState} {a : Nat} (inv : Inv st) :
    Inv (settleErrorState st a) := by
  constructor
  · exact le_trans (List.length_filter_le _ _) inv.active_le
  · simpa [settleErrorState, setStatus_map_id] using inv.ids_nodup
  · exact inv.queue_nodup
  · intro img him
    obtain ⟨img0, h0, hcase⟩ := mem_setStatus him
    have := inv.images_lt img0 h0
    rcases hcase with ⟨_, rfl⟩ | ⟨_, rfl⟩ <;> simpa using this
  · exact inv.queue_lt
  · intro img him hcomp
    obtain ⟨img0, h0, hcase⟩ := mem_setStatus him
    rcases hcase with ⟨hid, rfl⟩ | ⟨hid, rfl⟩
    · simp at hcomp
    · rcases inv.compressing_tracked img h0 hcomp with hin | hre
      · left
        simp only [settleErrorState]
        exact List.mem_filter.2 ⟨hin, by simpa using hid⟩
      · right
        exact hre
  · intro img him hcomp
    obtain ⟨img0, h0, hcase⟩ := mem_setStatus him
    rcases hcase with ⟨hid, rfl⟩ | ⟨hid, rfl⟩
    · simp at hcomp
    · exact inv.compressed_has_file img h0 hcomp

theorem Inv.settleDroppedCase {st : AppState} {a : Nat} (inv : Inv st)
    (hi : findImage st.images a = none) : Inv (settleDroppedState st a) := by
  constructor
  · exact le_trans (List.length_filter_le _ _) inv.active_le
  · exact inv.ids_nodup
  · exact inv.queue_nodup
  · exact inv.images_lt
  · exact inv.queue_lt
  · intro img him hcomp
    rcases inv.compressing_tracked img him hcomp with hin | hre
    · left
      simp only [settleDroppedState]
      refine List.mem_filter.2 ⟨hin, ?_⟩
      have := findImage_eq_none hi img him
      simpa using this
    · right
      exact hre
  · exact inv.compressed_has_file

theorem Inv.cancelQueuedCase {st : AppState} {a : Nat} (inv : Inv st) :
    Inv (cancelQueuedState st a) := by
  constructor
  · exact inv.active_le
  · simpa [cancelQueuedState, setStatus_map_id] using inv.ids_nodup
  · exact inv.queue_nodup.filter _
  · intro img him
    obtain ⟨img0, h0, hcase⟩ := mem_setStatus him
    have := inv.images_lt img0 h0
    rcases hcase with ⟨_, rfl⟩ | ⟨_, rfl⟩ <;> simpa using this
  · intro x hx
    exact inv.queue_lt x (List.mem_of_mem_filter hx)
  · intro img him hcomp
    obtain ⟨img0, h0, hcase⟩ := mem_setStatus him
    rcases hcase with ⟨hid, rfl⟩ | ⟨hid, rfl⟩
    · simp at hcomp
    · exact inv.compressing_tracked img h0 hcomp
  · intro img him hcomp
    obtain ⟨img0, h0, hcase⟩ := mem_setStatus him
    rcases hcase with ⟨hid, rfl⟩ | ⟨hid, rfl⟩
    · simp at hcomp
    · exact inv.compressed_has_file img h0 hcomp

theorem Inv.recompressStartCase {st : AppState} {a : Nat} (inv : Inv st)
    (hre : st.rerun = none) : Inv (recompressStartState st a) := by
  constructor
  · exact inv.active_le
  · simpa [recompressStartState, setStatus_map_id] using inv.ids_nodup
  · exact inv.queue_nodup
  · intro img him
    obtain ⟨img0, h0, hcase⟩ := mem_setStatus him
    have := inv.images_lt img0 h0
    rcases hcase with ⟨_, rfl⟩ | ⟨_, rfl⟩ <;> simpa using this
  · exact inv.queue_lt
  · intro img him hcomp
    obtain ⟨img0, h0, hcase⟩ := mem_setStatus him
    rcases hcase with ⟨hid, rfl⟩ | ⟨hid, rfl⟩
    · right
      simp only [recompressStartState]
      simpa using hid.symm
    · rcases inv.compressing_tracked img h0 hcomp with hin | hre'
      · exact Or.inl hin
      · rw [hre] at hre'
        cases hre'
  · intro img him hcomp
    obtain ⟨img0, h0, hcase⟩ := mem_setStatus him
    rcases hcase with ⟨hid, rfl⟩ | ⟨hid, rfl⟩
    · simp at hcomp
    · exact inv.compressed_has_file img h0 hcomp

theorem Inv.recompressSuccessCase {st : AppState} {a r : Nat} (inv : Inv st)
    (hre : st.rerun = some a) : Inv (recompressSuccessState st a r) := by
  constructor
  · exact inv.active_le
  · simpa [recompressSuccessState, applySuccess_map_id] using inv.ids_nodup
  · exact inv.queue_nodup
  · intro img him
    obtain ⟨img0, h0, hcase⟩ := mem_applySuccess him
    have := inv.images_lt img0 h0
    rcases hcase with ⟨_, rfl⟩ | ⟨_, rfl⟩ <;> simpa using this
  · exact inv.queue_lt
  · intro img him hcomp
    obtain ⟨img0, h0, hcase⟩ := mem_applySuccess him
    rcases hcase with ⟨hid, rfl⟩ | ⟨hid, rfl⟩
    · simp at hcomp
    · rcases inv.compressing_tracked img h0 hcomp with hin | hre'
      · exact Or.inl hin
      · rw [hre] at hre'
        cases hre'
        exact absurd rfl hid
  · intro img him hcomp
    obtain ⟨img0, h0, hcase⟩ := mem_applySuccess him
    rcases hcase with ⟨hid, rfl⟩ | ⟨hid, rfl⟩
    · simp
    · exact inv.compressed_has_file img h0 hcomp

theorem Inv.recompressErrorCase {st : AppState} {a : Nat} (inv : Inv st)
    (hre : st.rerun = some a) : Inv (recompressErrorState st a) := by
  constructor
  · exact inv.active_le
  · simpa [recompressErrorState, setStatus_map_id] using inv.ids_nodup
  · exact inv.queue_nodup
  · intro img him
    obtain ⟨img0, h0, hcase⟩ := mem_setStatus him
    have := inv.images_lt img0 h0
    rcases hcase with ⟨_, rfl⟩ | ⟨_, rfl⟩ <;> simpa using this
  · exact inv.queue_lt
  · intro img him hcomp
    obtain ⟨img0, h0, hcase⟩ := mem_setStatus him
    rcases hcase with ⟨hid, rfl⟩ | ⟨hid, rfl⟩
    · simp at hcomp
    · rcases inv.compressing_tracked img h0 hcomp with hin | hre'
      · exact Or.inl hin
      · rw [hre] at hre'
        cases hre'
        exact absurd rfl hid
  · intro img him hcomp
    obtain ⟨img0, h0, hcase⟩ := mem_setStatus him
    rcases hcase with ⟨hid, rfl⟩ | ⟨hid, rfl⟩
    · simp at hcomp
    · exact inv.compressed_has_file img h0 hcomp

theorem Inv.removeImageCase {st : AppState} {a : Nat} (inv : Inv st) :
    Inv (removeImageState st a) := by
  constructor
  · exact inv.active_le
  · exact inv.ids_nodup.sublist ((List.filter_sublist _).map _)
  · exact inv.queue_nodup.filter _
  · intro img him
    exact inv.images_lt img (List.mem_of_mem_filter him)
  · intro x hx
    exact inv.queue_lt x (List.mem_of_mem_filter hx)
  · intro img him hcomp
    exact inv.compressing_tracked img (List.mem_of_mem_filter him) hcomp
  · intro img him hcomp
    exact inv.compressed_has_file img (List.mem_of_mem_filter him) hcomp

theorem Inv.clearAllCase {st : AppState} (_inv : Inv st) :
    Inv (clearAllState st) := by
  constructor <;> simp [clearAllState, MAX_CONCURRENT]

theorem Inv.preserved {st : AppState} {l : Label} {st' : AppState}
    (inv : Inv st) (h : Step st l st') : Inv st' := by
  cases h with
  | upload fs => exact inv.upload fs
  | processQueue a rest hp hc hq => exact inv.processQueueCase hc hq
  | settleSuccess a r img ha hi => exact inv.settleSuccessCase
  | settleError a img ha hi => exact inv.settleErrorCase
  | settleDropped a ha hi => exact inv.settleDroppedCase hi
  | cancelQueued a h => exact inv.cancelQueuedCase
  | togglePause =>
      exact ⟨inv.active_le, inv.ids_nodup, inv.queue_nodup, inv.images_lt,
        inv.queue_lt, inv.compressing_tracked, inv.compressed_has_file⟩
  | selectImage a img h =>
      exact ⟨inv.active_le, inv.ids_nodup, inv.queue_nodup, inv.images_lt,
        inv.queue_lt, inv.compressing_tracked, inv.compressed_has_file⟩
  | recompressStart a hsel hre => exact inv.recompressStartCase hre
  | recompressSuccess a r h => exact inv.recompressSuccessCase h
  | recompressError a h => exact inv.recompressErrorCase h
  | removeImage a s h hterm => exact inv.removeImageCase
  | clearAll => exact inv.clearAllCase

theorem reachable_inv {st : AppState} (h : Reachable st) : Inv st := by
  induction h with
  | init => exact Inv.init
  | step hr hs ih => exact ih.preserved hs

/-- Every `compressing` record is accounted for either by the active set or by
the single in-flight re-compression, so their number is bounded by
`|active| + 1`. -/
theorem compressingCount_le {st : AppState} (inv : Inv st) :
    compressingCount st ≤ st.active.length + 1 := by
  set l := st.images.filter fun img => decide (img.status = .compressing) with hl
  have hsub : l.map (·.id) ⊆ st.active ++ st.rerun.toList := by
    intro x hx
    obtain ⟨img, himg, rfl⟩ := List.mem_map.1 hx
    have hmem := List.mem_filter.1 himg
    have hcomp : img.status = .compressing := by simpa using hmem.2
    rcases inv.compressing_tracked img hmem.1 hcomp with hin | hre
    · exact List.mem_append.2 (Or.inl hin)
    · refine List.mem_append.2 (Or.inr ?_)
      rw [hre]
      simp
  have hnd : (l.map (·.id)).Nodup :=
    inv.ids_nodup.sublist ((List.filter_sublist _).map _)
  have hlen := (hnd.subperm hsub).length_le
  rw [List.length_map, List.length_append] at hlen
  have htl : st.rerun.toList.length ≤ 1 := by
    cases st.rerun <;> simp
  calc compressingCount st = l.length := rfl
    _ ≤ st.active.length + st.rerun.toList.length := hlen
    _ ≤ st.active.length + 1 := by omega

def isSettleSuccess : Label → Bool
  | .settleSuccess _ _ => true
  | _ => false

/-- Number of successful queue settles among the events of a run. -/
def successCount (ls : List Label) : Nat := ls.countP isSettleSuccess

theorem handleFiles_completed (fs : List InputFile) (st : AppState) :
    (handleFiles fs st).completed = st.completed := by
  unfold handleFiles
  split
  · rfl
  · split
    · rfl
    · rfl

/-- `completed` moves only on a successful queue settle (and on `clearAll`,
excluded here): the error settle, the dropped settle and both re-compression
settles leave it unchanged. -/
theorem Step.completed_eq {st : AppState} {l : Label} {st' : AppState}
    (h : Step st l st') (hl : l ≠ .clearAll) :
    st'.completed = st.completed + (if isSettleSuccess l then 1 else 0) := by
  cases h with
  | upload fs => simp [isSettleSuccess, handleFiles_completed]
  | processQueue a rest hp hc hq => simp [isSettleSuccess, processQueueState]
  | settleSuccess a r img ha hi => simp [isSettleSuccess, settleSuccessState]
  | settleError a img ha hi => simp [isSettleSuccess, settleErrorState]
  | settleDropped a ha hi => simp [isSettleSuccess, settleDroppedState]
  | cancelQueued a h => simp [isSettleSuccess, cancelQueuedState]
  | togglePause => simp [isSettleSuccess]
  | selectImage a img h => simp [isSettleSuccess]
  | recompressStart a hsel hre => simp [isSettleSuccess, recompressStartState]
  | recompressSuccess a r h => simp [isSettleSuccess, recompressSuccessState]
  | recompressError a h => simp [isSettleSuccess, recompressErrorState]
  | removeImage a s h hterm => simp [isSettleSuccess, removeImageState]
  | clearAll => exact absurd rfl hl

/-! Concrete runs of the component, used below to exhibit reachable states. -/

def fileA : InputFile := { name := "a.png", type := "image/png", size := 100 }

def fileBig : InputFile :=
  { name := "big.png", type := "image/png", size := 6 * 1024 * 1024 }

def fileText : InputFile := { name := "notes.txt", type := "text/plain", size := 10 }

def cs1 : AppState := handleFiles [fileA, fileA, fileA, fileA] initState

def cs2 : AppState := processQueueState cs1 0 [1, 2, 3]

def cs3 : AppState := processQueueState cs2 1 [2, 3]

def cs4 : AppState := processQueueState cs3 2 [3]

def cs5 : AppState := settleSuccessState cs4 0 50

def cs6 : AppState := processQueueState cs5 3 []

def cs7 : AppState := { cs6 with selected := some 0 }

def cs8 : AppState := recompressStartState cs7 0

theorem step_cs1 : Step initState (.upload [fileA, fileA, fileA, fileA]) cs1 :=
  Step.upload initState [fileA, fileA, fileA, fileA]

theorem step_cs2 : Step cs1 .processQueue cs2 :=
  Step.processQueue cs1 0 [1, 2, 3] (by decide) (by decide) (by decide)

theorem step_cs3 : Step cs2 .processQueue cs3 :=
  Step.processQueue cs2 1 [2, 3] (by decide) (by decide) (by decide)

theorem step_cs4 : Step cs3 .processQueue cs4 :=
  Step.processQueue cs3 2 [3] (by decide) (by decide) (by decide)

theorem step_cs5 : Step cs4 (.settleSuccess 0 50) cs5 :=
  Step.settleSuccess cs4 0 50
    { id := 0, name := "a.png", originalSize := 100, compressedSize := 0,
      compressedFile := none, compressionRatio := 0, status := .compressing }
    (by decide) (by decide)

theorem step_cs6 : Step cs5 .processQueue cs6 :=
  Step.processQueue cs5 3 [] (by decide) (by decide) (by decide)

theorem step_cs7 : Step cs6 (.selectImage 0) cs7 :=
  Step.selectImage cs6 0 _ rfl

theorem step_cs8 : Step cs7 (.recompressStart 0) cs8 :=
  Step.recompressStart cs7 0 (by decide) (by decide)

theorem reachable_cs1 : Reachable cs1 := Reachable.step Reachable.init step_cs1

theorem reachable_cs4 : Reachable cs4 :=
  Reachable.step (Reachable.step (Reachable.step reachable_cs1 step_cs2) step_cs3)
    step_cs4

theorem reachable_cs5 : Reachable cs5 := Reachable.step reachable_cs4 step_cs5

theorem reachable_cs8 : Reachable cs8 :=
  Reachable.step (Reachable.step (Reachable.step reachable_cs5 step_cs6) step_cs7)
    step_cs8

/-- The labels of the run ending in `cs8`. -/
def csLabels : List Label :=
  [.upload [fileA, fileA, fileA, fileA], .processQueue, .processQueue,
   .processQueue, .settleSuccess 0 50, .processQueue, .selectImage 0,
   .recompressStart 0]

theorem trace_cs8 : Trace initState csLabels cs8 :=
  Trace.cons step_cs1 (Trace.cons step_cs2 (Trace.cons step_cs3 (Trace.cons step_cs4
    (Trace.cons step_cs5 (Trace.cons step_cs6 (Trace.cons step_cs7
      (Trace.cons step_cs8 (Trace.nil cs8))))))))

/-! A run in which a job fails in the queue and afterwards succeeds through a
re-compression request. -/

def ds1 : AppState := handleFiles [fileA] initState

def ds2 : AppState := processQueueState ds1 0 []

def ds3 : AppState := settleErrorState ds2 0

def ds4 : AppState := { ds3 with selected := some 0 }

def ds5 : AppState := recompressStartState ds4 0

def ds6 : AppState := recompressSuccessState ds5 0 40

theorem step_ds1 : Step initState (.upload [fileA]) ds1 := Step.upload initState [fileA]

theorem step_ds2 : Step ds1 .processQueue ds2 :=
  Step.processQueue ds1 0 [] (by decide) (by decide) (by decide)

theorem step_ds3 : Step ds2 (.settleError 0) ds3 :=
  Step.settleError ds2 0
    { id := 0, name := "a.png", originalSize := 100, compressedSize := 0,
      compressedFile := none, compressionRatio := 0, status := .compressing }
    (by decide) (by decide)

theorem step_ds4 : Step ds3 (.selectImage 0) ds4 :=
  Step.selectImage ds3 0
    { id := 0, name := "a.png", originalSize := 100, compressedSize := 0,
      compressedFile := none, compressionRatio := 0, status := .error }
    (by decide)

theorem step_ds5 : Step ds4 (.recompressStart 0) ds5 :=
  Step.recompressStart ds4 0 (by decide) (by decide)

theorem step_ds6 : Step ds5 (.recompressSuccess 40) ds6 :=
  Step.recompressSuccess ds5 0 40 (by decide)

theorem reachable_ds6 : Reachable ds6 :=
  Reachable.step (Reachable.step (Reachable.step (Reachable.step (Reachable.step
    (Reachable.step Reachable.init step_ds1) step_ds2) step_ds3) step_ds4)
      step_ds5) step_ds6

/-! A run in which a queued job starts compressing through the re-compress
button while the component is paused. -/

def es1 : AppState := { initState with paused := !initState.paused }

def es2 : AppState := handleFiles [fileA] es1

def es3 : AppState := { es2 with selected := some 0 }

def es4 : AppState := recompressStartState es3 0

theorem step_es1 : Step initState .togglePause es1 := Step.togglePause initState

theorem step_es2 : Step es1 (.upload [fileA]) es2 := Step.upload es1 [fileA]

theorem step_es3 : Step es2 (.selectImage 0) es3 :=
  Step.selectImage es2 0
    { id := 0, name := "a.png", originalSize := 100, compressedSize := 0,
      compressedFile := none, compressionRatio := 0, status := .queued }
    (by decide)

theorem step_es4 : Step es3 (.recompressStart 0) es4 :=
  Step.recompressStart es3 0 (by decide) (by decide)

theorem reachable_es3 : Reachable es3 :=
  Reachable.step (Reachable.step (Reachable.step Reachable.init step_es1) step_es2)
    step_es3

/-! A run with a cancellation of a still-queued job. -/

def qs1 : AppState := handleFiles [fileA, fileA] initState

def qs2 : AppState := cancelQueuedState qs1 1

theorem step_qs1 : Step initState (.upload [fileA, fileA]) qs1 :=
  Step.upload initState [fileA, fileA]

theorem step_qs2 : Step qs1 (.cancelQueued 1) qs2 :=
  Step.cancelQueued qs1 1 (by decide)

theorem reachable_qs1 : Reachable qs1 := Reachable.step Reachable.init step_qs1

/-! Removal of an already compressed job, from the `cs` run. -/

def ws : AppState := removeImageState cs5 0

theorem step_ws : Step cs5 (.removeImage 0) ws :=
  Step.removeImage cs5 0 .compressed (by decide) (Or.inl rfl)

/-! The claims. -/

/-- Claim C1, counterexample: a batch holding one valid image file (100 bytes)
and one oversized image file is rejected wholesale — zero `Queued` jobs are
created although the batch contains one valid file, where the claim predicts
one job per valid file. -/
theorem c1_counterexample :
    handleFiles [fileA, fileBig] initState = initState ∧
    ((handleFiles [fileA, fileBig] initState).images.filter fun img =>
      decide (img.status = .queued)).length = 0 ∧
    ([fileA, fileBig].filter validFile).length = 1 := by
  refine ⟨by decide, by decide, by decide⟩

/-- Claim C1 (amended): non-image files are dropped individually; the whole
batch is rejected (state unchanged) when no image file remains or when any
image file exceeds the 5 MB limit; otherwise every image file is valid and
becomes a new `Queued` job appended in input order, so the number of new jobs
equals the number of valid files exactly when no image file is oversized. -/
theorem c1_batch (fs : List InputFile) (st : AppState) :
    ((fs.filter isImageFile).length = 0 → handleFiles fs st = st) ∧
    ((∃ f ∈ fs.filter isImageFile, MAX_UPLOAD_SIZE_MB * 1024 * 1024 < f.size) →
      handleFiles fs st = st) ∧
    ((fs.filter isImageFile).length ≠ 0 →
      (∀ f ∈ fs.filter isImageFile, f.size ≤ MAX_UPLOAD_SIZE_MB * 1024 * 1024) →
      ∃ newJobs : List Image,
        (handleFiles fs st).images = st.images ++ newJobs ∧
        (handleFiles fs st).queue = st.queue ++ newJobs.map (·.id) ∧
        (∀ img ∈ newJobs, img.status = .queued) ∧
        newJobs.length = (fs.filter validFile).length ∧
        newJobs.map (fun img => (img.name, img.originalSize)) =
          (fs.filter validFile).map fun f => (f.name, f.size)) := by
  refine ⟨handleFiles_of_no_images fs st, handleFiles_of_oversized fs st, ?_⟩
  intro hne hsize
  have hvalid : fs.filter validFile = fs.filter isImageFile := by
    apply List.filter_congr
    intro f hf
    by_cases him : isImageFile f = true
    · have hmem : f ∈ fs.filter isImageFile := List.mem_filter.2 ⟨hf, him⟩
      simp [validFile, him, hsize f hmem]
    · have hff : isImageFile f = false := by simpa using him
      simp [validFile, hff]
  refine ⟨freshJobs st.nextId (fs.filter isImageFile), ?_, ?_, ?_, ?_, ?_⟩
  · rw [handleFiles_of_accepted fs st hne hsize]
  · rw [handleFiles_of_accepted fs st hne hsize]
  · intro img him
    exact (mem_freshJobs him).2.1
  · rw [freshJobs_length, hvalid]
  · rw [freshJobs_names, hvalid]

/-- Claim C1 witness: the amended theorem applied to the concrete mixed batch
of one valid and one oversized image file, rejected wholesale. -/
theorem c1_batch_witness : handleFiles [fileA, fileBig] initState = initState :=
  (c1_batch [fileA, fileBig] initState).2.1 ⟨fileBig, by decide, by decide⟩

/-- Claim C2, counterexample: in the reachable state `cs8` the active set is
full with three queue-admitted compressing jobs and a re-run of the already
compressed job 0 is in flight, so four jobs are simultaneously `compressing` —
the re-run does not occupy a slot of the concurrency budget, contradicting the
claimed bound `maxConcurrent`. -/
theorem c2_counterexample :
    Reachable cs8 ∧ cs8.active.length = MAX_CONCURRENT ∧
    compressingCount cs8 = MAX_CONCURRENT + 1 :=
  ⟨reachable_cs8, by decide, by decide⟩

/-- Claim C2 (amended): a re-run bypasses the pending queue and also the
concurrency accounting — starting one leaves the active set and the pending
list unchanged — but since at most one re-compression is in flight at a time,
the number of simultaneously compressing jobs in any reachable state is at
most `MAX_CONCURRENT + 1`. -/
theorem c2_bound (st : AppState) (hr : Reachable st) :
    compressingCount st ≤ MAX_CONCURRENT + 1 ∧
    ∀ a st', Step st (.recompressStart a) st' →
      st'.active = st.active ∧ st'.queue = st.queue := by
  have inv := reachable_inv hr
  refine ⟨?_, ?_⟩
  · have h1 := compressingCount_le inv
    have h2 := inv.active_le
    omega
  · intro a st' h
    cases h with
    | recompressStart hsel hre => exact ⟨rfl, rfl⟩

/-- Claim C2 witness: the amended bound evaluated at the reachable state
`cs8`, where the compressing count is four. -/
theorem c2_bound_witness : compressingCount cs8 ≤ MAX_CONCURRENT + 1 :=
  (c2_bound cs8 reachable_cs8).1

/-- Claim C3: in every reachable state the active set has at most
`MAX_CONCURRENT` members; the admission branch of `processQueue` fires only
strictly below that bound and adds exactly one member to the active set. -/
theorem c3_active_bound (st : AppState) (hr : Reachable st) :
    st.active.length ≤ MAX_CONCURRENT ∧
    ∀ st', Step st .processQueue st' →
      st.active.length < MAX_CONCURRENT ∧
      st'.active.length = st.active.length + 1 := by
  refine ⟨(reachable_inv hr).active_le, ?_⟩
  intro st' h
  cases h with
  | processQueue a rest hp hc hq =>
      refine ⟨hc, ?_⟩
      simp [processQueueState]

/-- Claim C3 witness: the bound evaluated at the reachable state `cs8`. -/
theorem c3_active_bound_witness : cs8.active.length ≤ MAX_CONCURRENT :=
  (c3_active_bound cs8 reachable_cs8).1

/-- Claim C4: admission is strictly FIFO — the admission step removes exactly
the head of the pending list, appends it to the active set and marks it
`compressing`, and leaves the status of every job strictly behind the head
unchanged; hence of two pending jobs the earlier-enqueued one always starts
compressing first. -/
theorem c4_fifo (st st' : AppState) (a : Nat) (rest : List Nat)
    (hr : Reachable st) (h : Step st .processQueue st')
    (hq : st.queue = a :: rest) :
    st'.queue = rest ∧ st'.active = st.active ++ [a] ∧
    findStatus st'.images a =
      (findStatus st.images a).map (fun _ => .compressing) ∧
    ∀ b ∈ rest, findStatus st'.images b = findStatus st.images b := by
  have inv := reachable_inv hr
  cases h with
  | processQueue b rest' hp hc hq' =>
      rw [hq] at hq'
      injection hq' with hb hrest
      subst hb
      subst hrest
      refine ⟨rfl, rfl, ?_, ?_⟩
      · show findStatus (setStatus st.images a .compressing) a = _
        unfold findStatus
        rw [findImage_setStatus_self]
        cases findImage st.images a <;> rfl
      · intro b hb
        have hnd := inv.queue_nodup
        rw [hq] at hnd
        have hba : b ≠ a := by
          intro he
          exact (List.nodup_cons.1 hnd).1 (he ▸ hb)
        show findStatus (setStatus st.images a .compressing) b = _
        unfold findStatus
        rw [findImage_setStatus_ne hba]

/-- Claim C4 witness: the admission step from `cs1` (pending list
`[0, 1, 2, 3]`) admits exactly the head 0 and leaves job 3 untouched. -/
theorem c4_fifo_witness :
    cs2.queue = [1, 2, 3] ∧ cs2.active = cs1.active ++ [0] ∧
    findStatus cs2.images 3 = findStatus cs1.images 3 := by
  obtain ⟨h1, h2, _, h4⟩ :=
    c4_fifo cs1 cs2 0 [1, 2, 3] reachable_cs1 step_cs2 (by decide)
  exact ⟨h1, h2, h4 3 (by decide)⟩

/-- Claim C5, counterexample: in the reachable paused state `es3` job 0 is
still `queued`, yet the re-compress request is enabled and moves it to
`compressing` while `paused` stays set — a `Queued` to `Compressing`
transition does occur while paused, through the re-run path. -/
theorem c5_counterexample :
    Reachable es3 ∧ es3.paused = true ∧
    findStatus es3.images 0 = some .queued ∧
    Step es3 (.recompressStart 0) es4 ∧
    es4.paused = true ∧ findStatus es4.images 0 = some .compressing :=
  ⟨reachable_es3, by decide, by decide, step_es4, by decide, by decide⟩

/-- Claim C5 (amended): while paused the scheduler admits nothing — an
admission step forces `paused = false` — jobs already in flight still settle
regardless of the paused flag, and as soon as `paused` is cleared an admission
step is enabled whenever the pending list is non-empty and the active set is
below the bound; the re-compress path, however, ignores the paused flag and
can still start a compression (see the counterexample). -/
theorem c5_pause (st : AppState) :
    (∀ st', Step st .processQueue st' → st.paused = false) ∧
    (∀ a r img, a ∈ st.active → findImage st.images a = some img →
      Step st (.settleSuccess a r) (settleSuccessState st a r)) ∧
    (st.paused = false → ∀ a rest, st.queue = a :: rest →
      st.active.length < MAX_CONCURRENT →
      Step st .processQueue (processQueueState st a rest)) := by
  refine ⟨?_, ?_, ?_⟩
  · intro st' h
    cases h with
    | processQueue a rest hp hc hq => exact hp
  · intro a r img ha hi
    exact Step.settleSuccess st a r img ha hi
  · intro hp a rest hq hc
    exact Step.processQueue st a rest hp hc hq

/-- Claim C5 witness: the amended theorem instantiated at `cs1`, whose queue
is non-empty, unpaused and below capacity, yielding the admission step. -/
theorem c5_pause_witness :
    Step cs1 .processQueue (processQueueState cs1 0 [1, 2, 3]) :=
  (c5_pause cs1).2.2 (by decide) 0 [1, 2, 3] (by decide) (by decide)

/-- An id that is outside the pending list and below the fresh-id counter can
never re-enter the pending list: uploads only append strictly larger fresh
ids, and every other event only removes pending entries. -/
theorem handleFiles_queue_nextId (fs : List InputFile) (st : AppState)
    {a : Nat} (hout : a ∉ st.queue) (hlt : a < st.nextId) :
    a ∉ (handleFiles fs st).queue ∧ a < (handleFiles fs st).nextId := by
  by_cases h0 : (fs.filter isImageFile).length = 0
  · rw [handleFiles_of_no_images fs st h0]
    exact ⟨hout, hlt⟩
  by_cases hov : ∃ f ∈ fs.filter isImageFile,
      MAX_UPLOAD_SIZE_MB * 1024 * 1024 < f.size
  · rw [handleFiles_of_oversized fs st hov]
    exact ⟨hout, hlt⟩
  push_neg at hov
  rw [handleFiles_of_accepted fs st h0 hov]
  constructor
  · intro hmem
    rcases List.mem_append.1 hmem with hm | hm
    · exact hout hm
    · obtain ⟨img, himg, rfl⟩ := List.mem_map.1 hm
      have := (mem_freshJobs himg).1.1
      omega
  · show a < st.nextId + (fs.filter isImageFile).length
    omega

/-- Claim C6: cancellation applies only to still-queued jobs — the cancel
transition requires status `queued` (the cancel button is rendered only for
queued rows), removes the id from the pending list and marks the record
`Cancelled`; no cancel transition exists for a `compressing` job, so an
in-flight compression is never preempted or marked cancelled; and an id that
left the pending list never re-enters it, excluding a cancelled job from all
future admission. -/
theorem c6_cancel (st : AppState) (a : Nat) :
    (∀ st', Step st (.cancelQueued a) st' →
      findStatus st.images a = some .queued ∧
      st' = cancelQueuedState st a ∧
      st'.queue = st.queue.filter (fun x => decide (x ≠ a)) ∧
      findStatus st'.images a = some .cancelled ∧ a ∉ st'.queue) ∧
    (findStatus st.images a = some .compressing →
      ¬ ∃ st', Step st (.cancelQueued a) st') ∧
    (∀ l st', a ∉ st.queue → a < st.nextId → Step st l st' →
      a ∉ st'.queue ∧ a < st'.nextId) := by
  refine ⟨?_, ?_, ?_⟩
  · intro st' h
    cases h with
    | cancelQueued =>
        rename_i hq
        refine ⟨hq, rfl, rfl, ?_, ?_⟩
        · unfold findStatus at hq ⊢
          obtain ⟨img0, hfi, hst⟩ := Option.map_eq_some'.1 hq
          show ((findImage (setStatus st.images a .cancelled) a).map (·.status)) = _
          rw [findImage_setStatus_self, hfi]
          rfl
        · intro hmem
          have := (List.mem_filter.1 hmem).2
          simp at this
  · intro hcomp hex
    obtain ⟨st', h⟩ := hex
    cases h with
    | cancelQueued =>
        rename_i hq
        rw [hq] at hcomp
        simp at hcomp
  · intro l st' hout hlt h
    cases h with
    | upload fs => exact handleFiles_queue_nextId fs st hout hlt
    | processQueue b rest hp hc hq =>
        refine ⟨?_, hlt⟩
        intro hmem
        exact hout (by rw [hq]; exact List.mem_cons_of_mem _ hmem)
    | settleSuccess b r img ha hi => exact ⟨hout, hlt⟩
    | settleError b img ha hi => exact ⟨hout, hlt⟩
    | settleDropped b ha hi => exact ⟨hout, hlt⟩
    | cancelQueued hq =>
        refine ⟨?_, hlt⟩
        intro hmem
        exact hout (List.mem_of_mem_filter hmem)
    | togglePause => exact ⟨hout, hlt⟩
    | selectImage b img hfi => exact ⟨hout, hlt⟩
    | recompressStart b hsel hre => exact ⟨hout, hlt⟩
    | recompressSuccess b r hre => exact ⟨hout, hlt⟩
    | recompressError b hre => exact ⟨hout, hlt⟩
    | removeImage b s hfi hterm =>
        refine ⟨?_, hlt⟩
        intro hmem
        exact hout (List.mem_of_mem_filter hmem)
    | clearAll =>
        refine ⟨?_, hlt⟩
        intro hmem
        cases hmem

/-- Claim C6 witness: cancelling the queued job 1 of `qs1` removes it from the
pending list and marks it cancelled. -/
theorem c6_cancel_witness :
    findStatus qs1.images 1 = some .queued ∧ qs2 = cancelQueuedState qs1 1 ∧
    findStatus qs2.images 1 = some .cancelled ∧ 1 ∉ qs2.queue := by
  obtain ⟨h1, h2, _, h4, h5⟩ := (c6_cancel qs1 1).1 qs2 step_qs2
  exact ⟨h1, h2, h4, h5⟩

/-- Claim C7, counterexample: in the reachable state `cs8` the previously
compressed job 0 has been re-run; its status is `compressing` while its stale
result data is still present, so result presence is not equivalent to status
`Compressed` across a re-run. -/
theorem c7_counterexample :
    Reachable cs8 ∧ findStatus cs8.images 0 = some .compressing ∧
    (findImage cs8.images 0).map (·.compressedFile) = some (some 50) :=
  ⟨reachable_cs8, by decide, by decide⟩

/-- Claim C7 (amended): the forward direction holds in every reachable state —
a job whose status is `Compressed` always carries result data — but the
converse fails: result fields are never cleared, so after a re-run of a
compressed job the stale result coexists with status `Compressing` or `Error`
(see the counterexample). -/
theorem c7_result (st : AppState) (hr : Reachable st) (img : Image)
    (him : img ∈ st.images) (hcomp : img.status = .compressed) :
    img.compressedFile ≠ none :=
  (reachable_inv hr).compressed_has_file img him hcomp

/-- Claim C7 witness: the compressed job 0 of the reachable state `cs5`
carries result data. -/
theorem c7_result_witness :
    (findImage cs5.images 0).map (·.compressedFile) ≠ some none := by
  cases hfi : findImage cs5.images 0 with
  | none => simp
  | some img =>
      have hmem : img ∈ cs5.images := List.mem_of_find?_eq_some hfi
      have hst : img.status = .compressed := by
        have hd : findStatus cs5.images 0 = some .compressed := by decide
        unfold findStatus at hd
        rw [hfi] at hd
        simpa using hd
      have hne := c7_result cs5 reachable_cs5 img hmem hst
      simp only [Option.map_some']
      intro hcon
      apply hne
      simpa using hcon

/-- Claim C8, counterexample: in the reachable state `ds6` job 0 settled in
`Error` through the queue and then reached `Compressed` through a re-run; the
`completed` counter is still 0 although one job reached status `Compressed`,
so the counter does not increment once per job reaching `Compressed`. -/
theorem c8_counterexample :
    Reachable ds6 ∧ ds6.completed = 0 ∧
    (ds6.images.filter fun img => decide (img.status = .compressed)).length = 1 :=
  ⟨reachable_ds6, by decide, by decide⟩

/-- Claim C8 (amended): over any run without `clearAll`, the `completed`
counter grows by exactly the number of successful queue settles — an error
settle never increments it, and neither does a successful re-run, which is how
a job can reach `Compressed` without ever being counted. -/
theorem c8_completed (st : AppState) (ls : List Label) (st' : AppState)
    (h : Trace st ls st') (hnc : Label.clearAll ∉ ls) :
    st'.completed = st.completed + successCount ls := by
  induction h with
  | nil => simp [successCount]
  | cons hstep htr ih =>
      simp only [List.mem_cons, not_or] at hnc
      obtain ⟨hl, hls⟩ := hnc
      have h1 := hstep.completed_eq (fun he => hl he.symm)
      have h2 := ih hls
      rw [h2, h1]
      unfold successCount
      rw [List.countP_cons]
      split <;> omega

/-- Claim C8 witness: the amended theorem evaluated on the run leading to
`cs8`, which holds exactly one successful queue settle. -/
theorem c8_completed_witness :
    cs8.completed = initState.completed + successCount csLabels :=
  c8_completed initState csLabels cs8 trace_cs8 (by decide)

/-- Claim C9: a successful queue settle stores on the job record the ratio
`max 0 (round ((1 - outputSize/inputSize) * 100))` together with status
`compressed`, and for input size 1,000,000 and output size 250,000 bytes the
ratio is exactly 75. -/
theorem c9_ratio (st st' : AppState) (a r : Nat) (img : Image)
    (h : Step st (.settleSuccess a r) st')
    (hi : findImage st.images a = some img) (_hpos : 0 < img.originalSize) :
    findStatus st'.images a = some .compressed ∧
    (findImage st'.images a).map (·.compressionRatio) =
      some (max 0 (round ((1 - (r : ℚ) / (img.originalSize : ℚ)) * 100))) ∧
    compressionRatioOf 1000000 250000 = 75 := by
  have h75 : compressionRatioOf 1000000 250000 = 75 := by
    norm_num [compressionRatioOf, round_eq]
  cases h with
  | settleSuccess img' ha hi' =>
      refine ⟨?_, ?_, h75⟩
      · show ((findImage (applySuccess st.images a r) a).map (·.status)) = _
        rw [findImage_applySuccess_self, hi]
        rfl
      · show ((findImage (applySuccess st.images a r) a).map
          (·.compressionRatio)) = _
        rw [findImage_applySuccess_self, hi]
        rfl

/-- Claim C9 witness: the settle step from `cs4` to `cs5` stores ratio
`max 0 (round 50) = 50` for input 100 and output 50 bytes, and the fixed
instance of the claim evaluates to 75. -/
theorem c9_ratio_witness :
    findStatus cs5.images 0 = some .compressed ∧
    (findImage cs5.images 0).map (·.compressionRatio) =
      some (max 0 (round ((1 - (50 : ℚ) / (100 : ℚ)) * 100))) ∧
    compressionRatioOf 1000000 250000 = 75 := by
  have h := c9_ratio cs4 cs5 0 50
    { id := 0, name := "a.png", originalSize := 100, compressedSize := 0,
      compressedFile := none, compressionRatio := 0, status := .compressing }
    step_cs5 (by decide) (by decide)
  simpa using h

/-- Claim C10: `removeImage` mutates only the removed record, the pending list
and the current selection — the `completed` counter, the active set, the
paused flag and every other job record are unchanged; when the removed job was
`Compressed`, the counter stays put while the progress denominator shrinks by
one. -/
theorem c10_remove (st st' : AppState) (a : Nat)
    (hr : Reachable st) (h : Step st (.removeImage a) st') :
    st'.completed = st.completed ∧ st'.active = st.active ∧
    st'.paused = st.paused ∧
    st'.images = st.images.filter (fun img => decide (img.id ≠ a)) ∧
    st'.queue = st.queue.filter (fun x => decide (x ≠ a)) ∧
    (∀ img ∈ st.images, img.id ≠ a → img ∈ st'.images) ∧
    (findStatus st.images a = some .compressed →
      totalToProcess st' + 1 = totalToProcess st) := by
  have inv := reachable_inv hr
  cases h with
  | removeImage s hs hterm =>
      refine ⟨rfl, rfl, rfl, rfl, rfl, ?_, ?_⟩
      · intro img him hne
        show img ∈ st.images.filter fun img => decide (img.id ≠ a)
        exact List.mem_filter.2 ⟨him, by simpa using hne⟩
      · intro hcomp
        unfold findStatus at hcomp
        obtain ⟨img0, hfi, hst⟩ := Option.map_eq_some'.1 hcomp
        have hmem : img0 ∈ st.images := List.mem_of_find?_eq_some hfi
        have hida : img0.id = a := by simpa using List.find?_some hfi
        obtain ⟨s1, t1, hdec⟩ := List.append_of_mem hmem
        have hnd := inv.ids_nodup
        rw [hdec, List.map_append, List.map_cons] at hnd
        have hnotin := (List.nodup_cons.1 (List.nodup_middle.1 hnd)).1
        have hout : ∀ x ∈ s1 ++ t1, x.id ≠ a := by
          intro x hx hxa
          apply hnotin
          rw [List.mem_append]
          rcases List.mem_append.1 hx with hmx | hmx
          · exact Or.inl (List.mem_map.2 ⟨x, hmx, by rw [hxa, hida]⟩)
          · exact Or.inr (List.mem_map.2 ⟨x, hmx, by rw [hxa, hida]⟩)
        have himg' : (st.images.filter fun img => decide (img.id ≠ a)) =
            s1 ++ t1 := by
          rw [hdec, List.filter_append, List.filter_cons]
          have h0 : (decide (img0.id ≠ a)) = false := by simp [hida]
          rw [h0]
          simp only [Bool.false_eq_true, if_false]
          congr 1
          · exact List.filter_eq_self.2 fun x hx => by
              simpa using hout x (List.mem_append.2 (Or.inl hx))
          · exact List.filter_eq_self.2 fun x hx => by
              simpa using hout x (List.mem_append.2 (Or.inr hx))
        have hp0 : (decide (img0.status ≠ Status.idle) &&
            decide (img0.status ≠ Status.cancelled)) = true := by
          have : img0.status = .compressed := by simpa using hst
          rw [this]
          decide
        unfold totalToProcess
        show ((st.images.filter fun img =>
            decide (img.id ≠ a)).filter _).length + 1 = _
        rw [himg', hdec, List.filter_append, List.filter_append,
          List.filter_cons, hp0]
        simp only [if_true, List.length_append, List.length_cons]
        omega

/-- Claim C10 witness: removing the compressed job 0 from `cs5` keeps the
counter and the active set and shrinks the progress denominator from 4 to
3. -/
theorem c10_remove_witness :
    ws.completed = cs5.completed ∧ ws.active = cs5.active ∧
    totalToProcess ws + 1 = totalToProcess cs5 := by
  obtain ⟨h1, h2, _, _, _, _, h7⟩ := c10_remove cs5 ws 0 reachable_cs5 step_ws
  exact ⟨h1, h2, h7 (by decide)⟩

end ImageCompressor
